import Mathlib

/-!
Shallow embedding of `src/py_playground/snapshot_map.py` (class
`SnapshottableMap`) together with proofs of the specification's claims
about it.

Modelling conventions:
* Python `int` is modelled as `Int` (snapshot ids, counter); values are
  `Option Int` (`none` models Python `None`, the tombstone).
* The dictionary `_key_history_store` is modelled as a total function
  `String → List HistoryEntry` where an absent key is the empty list.
  This is faithful because `put` (the only code that inserts a key) always
  leaves a non-empty history for that key, so "key present in the dict"
  and "history non-empty" coincide in every reachable state; `delete`'s
  membership test `k in self._key_history_store` is therefore modelled as
  a non-emptiness test.
* In-place mutation of the last list element (`history[-1].value = v`)
  becomes `history.dropLast ++ [updated]`.
* Exceptions become result constructors.  Python raises `KeyError` with
  different messages for the "never existed" and the "deleted" case of
  `get_from_snapshot`; we keep them as distinct constructors, matching the
  spec's error taxonomy.  `get_from_snapshot` returning Python `None` (the
  "absent" case) is the constructor `SnapResult.absent`.
-/

/-- History entry of `snapshot_map.py`: a value recorded for a key at a
specific pending snapshot id; `value = none` is the tombstone. -/
structure HistoryEntry where
  snap_id : Int
  value : Option Int
  deriving Repr, DecidableEq, Inhabited

/-- State of a `SnapshottableMap`: the per-key history store and the
counter `_next_snap_id`. -/
structure SnapshottableMap where
  store : String → List HistoryEntry
  next_snap_id : Int

namespace SnapshottableMap

/-- Fresh map as built by `__init__`: empty store, counter 0. -/
def empty : SnapshottableMap :=
  ⟨fun _ => [], 0⟩

/-- Body of `take_snapshot`: returns the current counter and the state with
the counter incremented. -/
def take_snapshot (s : SnapshottableMap) : Int × SnapshottableMap :=
  (s.next_snap_id, { s with next_snap_id := s.next_snap_id + 1 })

/-- History update performed by `put` on one key's history list: if the list
is non-empty and its last entry carries the current pending snapshot id,
overwrite that entry's value in place, otherwise append a new entry. -/
def putHistory (history : List HistoryEntry) (n : Int) (v : Option Int) :
    List HistoryEntry :=
  match history.getLast? with
  | some last =>
      if last.snap_id = n then
        history.dropLast ++ [{ last with value := v }]
      else
        history ++ [⟨n, v⟩]
  | none => [⟨n, v⟩]

/-- Body of `put`: update the key's history (creating it when absent — the
`setdefault` call) with the current pending snapshot id. -/
def put (s : SnapshottableMap) (k : String) (v : Option Int) :
    SnapshottableMap :=
  { s with
    store := fun k' =>
      if k' = k then putHistory (s.store k) s.next_snap_id v else s.store k' }

/-- Body of `delete`: only if the key is present in the store (equivalently,
its history is non-empty) record a tombstone via `put`; otherwise do
nothing. -/
def delete (s : SnapshottableMap) (k : String) : SnapshottableMap :=
  if s.store k = [] then s else s.put k none

/-- Result of `get`: either a value or the raised `KeyError` (Python uses
the same exception kind both when the key has no history and when the last
entry is a tombstone). -/
inductive GetResult where
  | ok (v : Int)
  | keyError
  deriving Repr, DecidableEq

/-- Body of `get`: look at the last entry of the key's history; no history
(or an empty one) and a tombstone both raise `KeyError`. -/
def get (s : SnapshottableMap) (k : String) : GetResult :=
  match (s.store k).getLast? with
  | none => GetResult.keyError
  | some last =>
      match last.value with
      | none => GetResult.keyError
      | some v => GetResult.ok v

/-- Result of `get_from_snapshot`: a value, the Python-`None` return (the
"absent" case), the `IndexError` for an invalid snap id, the `KeyError`
raised when the key never existed, or the `KeyError` raised when the
resolved entry is a tombstone. -/
inductive SnapResult where
  | ok (v : Int)
  | absent
  | indexError
  | keyErrorNever
  | keyErrorDeleted
  deriving Repr, DecidableEq

/-- Two-pointer binary-search loop of `get_from_snapshot` (the `while
left <= right` loop): finds the index of the last history entry whose
snap id is at most `snap_id`, keeping `idx` as the best index so far.
Python's floor division `//` is `Int.fdiv`. -/
def searchLoop (history : List HistoryEntry) (snap_id : Int)
    (left right idx : Int) : Int :=
  if h : left ≤ right then
    let mid := (left + right).fdiv 2
    if (history.getD mid.toNat default).snap_id ≤ snap_id then
      searchLoop history snap_id (mid + 1) right mid
    else
      searchLoop history snap_id left (mid - 1) idx
  else
    idx
termination_by (right + 1 - left).toNat
decreasing_by
  · rw [Int.fdiv_eq_ediv _ (by omega)]
    omega
  · rw [Int.fdiv_eq_ediv _ (by omega)]
    omega

/-- Body of `get_from_snapshot`: range-check the snap id, raise `KeyError`
for a key with no history, binary-search the history; `idx = -1` returns
Python `None`, a tombstone raises `KeyError`, otherwise the entry's value
is returned. -/
def get_from_snapshot (s : SnapshottableMap) (k : String) (snap_id : Int) :
    SnapResult :=
  if ¬ (0 ≤ snap_id ∧ snap_id < s.next_snap_id) then
    SnapResult.indexError
  else
    let history := s.store k
    if history = [] then
      SnapResult.keyErrorNever
    else
      let idx := searchLoop history snap_id 0 ((history.length : Int) - 1) (-1)
      if idx = -1 then
        SnapResult.absent
      else
        match (history.getD idx.toNat default).value with
        | none => SnapResult.keyErrorDeleted
        | some v => SnapResult.ok v

/-- Entry ordering on history lists: strictly increasing snapshot ids. -/
def entryLt (a b : HistoryEntry) : Prop :=
  a.snap_id < b.snap_id

/-- Sorted history: snapshot ids strictly increase along the list. -/
def timelineSorted (l : List HistoryEntry) : Prop :=
  List.Chain' entryLt l

instance : IsTrans HistoryEntry entryLt :=
  ⟨fun _ _ _ hab hbc => Int.lt_trans hab hbc⟩

/-- Number of history entries whose snap id is at most `v`.  On a sorted
history these form exactly the first `countLe` positions. -/
def countLe (history : List HistoryEntry) (v : Int) : Nat :=
  history.countP (fun e => decide (e.snap_id ≤ v))

/-- Helper of `linearScan`: walk the whole history left to right keeping
the index of the last entry seen whose snap id is at most `v`. -/
def linearScanGo : List HistoryEntry → Int → Int → Int → Int
  | [], _, _, idx => idx
  | e :: t, v, i, idx =>
      linearScanGo t v (i + 1) (if e.snap_id ≤ v then i else idx)

/-- Linear scan over a history for the rightmost index whose snap id is at
most `v`, returning -1 when there is none: the straightforward
specification that the binary search of `get_from_snapshot` is checked
against. -/
def linearScan (history : List HistoryEntry) (v : Int) : Int :=
  linearScanGo history v 0 (-1)

/-- Specification of historical resolution: the last history entry whose
snap id is at most `v`, if any. -/
def resolveAt (history : List HistoryEntry) (v : Int) : Option HistoryEntry :=
  (history.filter (fun e => decide (e.snap_id ≤ v))).getLast?

/-- Invariant of every reachable map state: the counter is non-negative and
every key's history is sorted with entries tagged between 0 and the current
pending snapshot id. -/
def Inv (s : SnapshottableMap) : Prop :=
  0 ≤ s.next_snap_id ∧
  ∀ k, timelineSorted (s.store k) ∧
    ∀ e ∈ s.store k, 0 ≤ e.snap_id ∧ e.snap_id ≤ s.next_snap_id

/-- Value of the last history entry of a key, when there is one. -/
def lastVal (s : SnapshottableMap) (k : String) : Option (Option Int) :=
  ((s.store k).getLast?).map (fun e => e.value)

end SnapshottableMap

/-- Public operations of the map, used to describe arbitrary call
sequences.  The two read operations are included: in the source they do
not mutate the state, so their `step` is the identity. -/
inductive Op where
  | put (k : String) (v : Option Int)
  | delete (k : String)
  | snapshot
  | get (k : String)
  | getFromSnapshot (k : String) (v : Int)
  deriving Repr, DecidableEq

/-- State transition of a single operation. -/
def step (s : SnapshottableMap) : Op → SnapshottableMap
  | Op.put k v => s.put k v
  | Op.delete k => s.delete k
  | Op.snapshot => (s.take_snapshot).2
  | Op.get _ => s
  | Op.getFromSnapshot _ _ => s

/-- State after executing a whole call sequence. -/
def run : SnapshottableMap → List Op → SnapshottableMap
  | s, [] => s
  | s, op :: rest => run (step s op) rest

/-- Number of `take_snapshot` calls in a sequence. -/
def snapCount : List Op → Nat
  | [] => 0
  | Op.snapshot :: rest => snapCount rest + 1
  | _ :: rest => snapCount rest

/-- Values returned by the `take_snapshot` calls of a sequence, in call
order. -/
def runTrace : SnapshottableMap → List Op → List Int
  | _, [] => []
  | s, Op.snapshot :: rest =>
      (s.take_snapshot).1 :: runTrace (s.take_snapshot).2 rest
  | s, op :: rest => runTrace (step s op) rest

/-- Abstract current value of one key (`none`: never effectively written;
`some none`: last effective write was a deletion; `some (some x)`: last
effective write was `put x`).  A `delete` is effective only when the key
has been written before, matching the source's membership guard. -/
def stepVal (op : Op) (k : String) (a : Option (Option Int)) :
    Option (Option Int) :=
  match op with
  | Op.put k' v => if k' = k then some v else a
  | Op.delete k' =>
      if k' = k then
        match a with
        | none => none
        | some _ => some none
      else a
  | _ => a

/-- Abstract current value after a call sequence, starting from `a`. -/
def applyVal : List Op → String → Option (Option Int) → Option (Option Int)
  | [], _, a => a
  | op :: rest, k, a => applyVal rest k (stepVal op k a)

/-- Specification of the current value of key `k` after `ops` run on a
fresh map: the value of the most recent non-superseded effective write. -/
def currentVal (ops : List Op) (k : String) : Option (Option Int) :=
  applyVal ops k none

/-- Whether an operation writes (puts or deletes) the given key. -/
def writesKey (op : Op) (k : String) : Bool :=
  match op with
  | Op.put k' _ => k' = k
  | Op.delete k' => k' = k
  | _ => false

/-- Repeated `put` calls on one key with the given values, left to right. -/
def applyPuts (s : SnapshottableMap) (k : String) (vs : List (Option Int)) :
    SnapshottableMap :=
  vs.foldl (fun t v => t.put k v) s

/-- Small concrete map used to exercise the theorems: one key `"a"` whose
history is a single entry (version 0, value 5), one snapshot taken. -/
def sampleMap : SnapshottableMap :=
  ⟨fun k => if k = "a" then [⟨0, some 5⟩] else [], 1⟩

/-- State immediately after the `take_snapshot` call that closes off the
calls in `pre`, starting from a fresh map. -/
def afterSnap (pre : List Op) : SnapshottableMap :=
  ((run SnapshottableMap.empty pre).take_snapshot).2

/-- Version returned by that same `take_snapshot` call. -/
def snapVersion (pre : List Op) : Int :=
  ((run SnapshottableMap.empty pre).take_snapshot).1

/-- State at query time: any further calls `suf` executed after the
snapshot. -/
def finalState (pre suf : List Op) : SnapshottableMap :=
  run (afterSnap pre) suf

namespace SnapshottableMap

/-! ### Basic facts about `putHistory` -/

theorem putHistory_ne_nil (history : List HistoryEntry) (n : Int)
    (v : Option Int) : putHistory history n v ≠ [] := by
  unfold putHistory
  cases h : history.getLast? with
  | none => simp
  | some last =>
      by_cases hs : last.snap_id = n <;> simp [hs]

theorem putHistory_getLast (history : List HistoryEntry) (n : Int)
    (v : Option Int) :
    (putHistory history n v).getLast? = some ⟨n, v⟩ := by
  unfold putHistory
  cases h : history.getLast? with
  | none => simp
  | some last =>
      by_cases hs : last.snap_id = n
      · subst hs
        simp [List.getLast?_concat]
      · simp [hs, List.getLast?_concat]

theorem putHistory_sorted {history : List HistoryEntry} {n : Int}
    (v : Option Int) (hs : timelineSorted history)
    (hb : ∀ e ∈ history, e.snap_id ≤ n) :
    timelineSorted (putHistory history n v) := by
  unfold putHistory
  cases h : history.getLast? with
  | none => exact List.chain'_singleton _
  | some last =>
      have hdrop : history.dropLast ++ [last] = history :=
        List.dropLast_append_getLast? last h
      by_cases heq : last.snap_id = n
      · simp only [heq, if_true]
        unfold timelineSorted at hs ⊢
        rw [← hdrop, List.chain'_append] at hs
        rw [List.chain'_append]
        refine ⟨hs.1, List.chain'_singleton _, ?_⟩
        intro x hx y hy
        simp only [List.head?_cons, Option.mem_def, Option.some.injEq] at hy
        subst hy
        have h2 : x.snap_id < last.snap_id := hs.2.2 x hx last (by simp)
        show x.snap_id < n
        omega
      · simp only [heq, if_false]
        unfold timelineSorted at hs ⊢
        rw [List.chain'_append]
        refine ⟨hs, List.chain'_singleton _, ?_⟩
        intro x hx y hy
        simp only [List.head?_cons, Option.mem_def, Option.some.injEq] at hy
        subst hy
        have hxl : x = last := by
          rw [Option.mem_def, h, Option.some.injEq] at hx
          exact hx.symm
        subst hxl
        have hxm : x ∈ history := List.mem_of_getLast?_eq_some h
        have hle : x.snap_id ≤ n := hb x hxm
        show x.snap_id < n
        omega

theorem putHistory_mem {history : List HistoryEntry} {n : Int}
    {v : Option Int} {e : HistoryEntry}
    (he : e ∈ putHistory history n v) :
    e ∈ history ∨ e.snap_id = n := by
  unfold putHistory at he
  cases h : history.getLast? with
  | none =>
      rw [h] at he
      simp only [List.mem_singleton] at he
      subst he
      exact Or.inr rfl
  | some last =>
      rw [h] at he
      by_cases heq : last.snap_id = n
      · simp only [heq, if_true, List.mem_append, List.mem_singleton] at he
        rcases he with he | he
        · exact Or.inl (List.dropLast_subset _ he)
        · subst he
          exact Or.inr rfl
      · simp only [heq, if_false, List.mem_append, List.mem_singleton] at he
        rcases he with he | he
        · exact Or.inl he
        · subst he
          exact Or.inr rfl

theorem putHistory_putHistory (history : List HistoryEntry) (n : Int)
    (v1 v2 : Option Int) :
    putHistory (putHistory history n v1) n v2 = putHistory history n v2 := by
  cases h : history.getLast? with
  | none =>
      have hnil : history = [] := List.getLast?_eq_none_iff.mp h
      subst hnil
      simp [putHistory]
  | some last =>
      by_cases heq : last.snap_id = n
      · simp [putHistory, h, heq, List.getLast?_concat, List.dropLast_concat]
      · simp [putHistory, h, heq, List.getLast?_concat, List.dropLast_concat]

/-! ### The state invariant and the operation layer -/

theorem Inv_empty : Inv empty := by
  refine ⟨le_refl 0, fun k => ⟨List.chain'_nil, ?_⟩⟩
  intro e he
  simp [empty] at he

theorem Inv_put {s : SnapshottableMap} (hInv : Inv s) (k : String)
    (v : Option Int) : Inv (s.put k v) := by
  obtain ⟨hN, hk⟩ := hInv
  refine ⟨hN, fun k' => ?_⟩
  have hstore : (s.put k v).store k' =
      if k' = k then putHistory (s.store k) s.next_snap_id v
      else s.store k' := rfl
  have hnext : (s.put k v).next_snap_id = s.next_snap_id := rfl
  rw [hstore, hnext]
  by_cases h : k' = k
  · simp only [h, if_true]
    refine ⟨putHistory_sorted v (hk k).1 (fun e he => ((hk k).2 e he).2), ?_⟩
    intro e he
    rcases putHistory_mem he with hmem | heq
    · exact (hk k).2 e hmem
    · exact ⟨by omega, by omega⟩
  · simp only [h, if_false]
    exact hk k'

theorem Inv_delete {s : SnapshottableMap} (hInv : Inv s) (k : String) :
    Inv (s.delete k) := by
  unfold delete
  by_cases h : s.store k = []
  · simpa [h] using hInv
  · simpa [h] using Inv_put hInv k none

theorem Inv_take_snapshot {s : SnapshottableMap} (hInv : Inv s) :
    Inv (s.take_snapshot).2 := by
  obtain ⟨hN, hk⟩ := hInv
  have hnext : (s.take_snapshot).2.next_snap_id = s.next_snap_id + 1 := rfl
  have hstore : (s.take_snapshot).2.store = s.store := rfl
  refine ⟨by omega, fun k => ?_⟩
  rw [hstore, hnext]
  refine ⟨(hk k).1, ?_⟩
  intro e he
  have := (hk k).2 e he
  omega

/-! ### Binary search correctness -/

theorem sorted_all_gt {e : HistoryEntry} {t : List HistoryEntry} {v : Int}
    (hp : List.Pairwise entryLt (e :: t)) (hpe : ¬ e.snap_id ≤ v) :
    ∀ x ∈ t, ¬ x.snap_id ≤ v := by
  intro x hx
  have hlt : entryLt e x := (List.pairwise_cons.mp hp).1 x hx
  unfold entryLt at hlt
  omega

theorem sorted_getD_le_iff {history : List HistoryEntry} {v : Int}
    (hs : timelineSorted history) :
    ∀ i : Nat, i < history.length →
      ((history.getD i default).snap_id ≤ v ↔ i < countLe history v) := by
  have hp : List.Pairwise entryLt history := List.chain'_iff_pairwise.mp hs
  clear hs
  induction history with
  | nil =>
      intro i hi
      simp at hi
  | cons e t ih =>
      intro i hi
      have hpt : List.Pairwise entryLt t := (List.pairwise_cons.mp hp).2
      by_cases hpe : e.snap_id ≤ v
      · have hc : countLe (e :: t) v = countLe t v + 1 := by
          simp [countLe, List.countP_cons, hpe]
        cases i with
        | zero => simp [List.getD_cons_zero, hpe, hc]
        | succ j =>
            have hj : j < t.length := by simpa using hi
            have hiff := ih hpt j hj
            rw [List.getD_cons_succ, hc, hiff]
            omega
      · have hall := sorted_all_gt hp hpe
        have hc : countLe (e :: t) v = 0 := by
          rw [countLe, List.countP_eq_zero]
          intro x hx
          rcases List.mem_cons.mp hx with hx | hx
          · subst hx
            simpa using hpe
          · simpa using hall x hx
        cases i with
        | zero => simp [List.getD_cons_zero, hpe, hc]
        | succ j =>
            have hj : j < t.length := by simpa using hi
            rw [List.getD_cons_succ, hc]
            simp only [Nat.not_lt_zero, iff_false]
            have hmem : t.getD j default ∈ t := by
              rw [List.getD_eq_getElem t default hj]
              exact List.getElem_mem hj
            exact hall _ hmem

theorem searchLoop_step (history : List HistoryEntry) (v left right idx : Int)
    (hlr : left ≤ right) :
    searchLoop history v left right idx =
      if (history.getD ((left + right).fdiv 2).toNat default).snap_id ≤ v then
        searchLoop history v ((left + right).fdiv 2 + 1) right
          ((left + right).fdiv 2)
      else
        searchLoop history v left ((left + right).fdiv 2 - 1) idx := by
  conv_lhs => rw [searchLoop.eq_def]
  rw [dif_pos hlr]

theorem searchLoop_stop (history : List HistoryEntry) (v left right idx : Int)
    (hlr : ¬ left ≤ right) :
    searchLoop history v left right idx = idx := by
  conv_lhs => rw [searchLoop.eq_def]
  rw [dif_neg hlr]

theorem searchLoop_spec (history : List HistoryEntry) (v : Int)
    (hs : timelineSorted history) :
    ∀ (n : Nat) (left right idx : Int),
      (right + 1 - left).toNat = n →
      0 ≤ left → right < (history.length : Int) →
      idx = left - 1 →
      left ≤ (countLe history v : Int) →
      (countLe history v : Int) - 1 ≤ right →
      searchLoop history v left right idx = (countLe history v : Int) - 1 := by
  intro n
  induction n using Nat.strong_induction_on with
  | _ n ih =>
      intro left right idx hn h0 hlen hidx hlc hrc
      by_cases hlr : left ≤ right
      · rw [searchLoop_step history v left right idx hlr]
        have hmide : (left + right).fdiv 2 = (left + right) / 2 :=
          Int.fdiv_eq_ediv _ (by omega)
        set mid := (left + right).fdiv 2 with hmid
        have h1 : left ≤ mid := by omega
        have h2 : mid ≤ right := by omega
        have hmidlen : mid.toNat < history.length := by omega
        by_cases hcmp : (history.getD mid.toNat default).snap_id ≤ v
        · rw [if_pos hcmp]
          have hmc : mid.toNat < countLe history v :=
            (sorted_getD_le_iff hs mid.toNat hmidlen).mp hcmp
          exact ih (right + 1 - (mid + 1)).toNat (by omega) (mid + 1) right mid
            rfl (by omega) hlen (by omega) (by omega) hrc
        · rw [if_neg hcmp]
          have hmc : ¬ mid.toNat < countLe history v := fun hcon =>
            hcmp ((sorted_getD_le_iff hs mid.toNat hmidlen).mpr hcon)
          exact ih (mid - 1 + 1 - left).toNat (by omega) left (mid - 1) idx
            rfl h0 (by omega) hidx hlc (by omega)
      · rw [searchLoop_stop history v left right idx hlr]
        omega

/-- Result of the binary search as it is invoked by `get_from_snapshot`:
the number of entries with snap id at most `v`, minus one. -/
theorem searchLoop_main (history : List HistoryEntry) (v : Int)
    (hs : timelineSorted history) :
    searchLoop history v 0 ((history.length : Int) - 1) (-1) =
      (countLe history v : Int) - 1 := by
  have hcl : countLe history v ≤ history.length := List.countP_le_length _
  exact searchLoop_spec history v hs ((history.length : Int) - 1 + 1 - 0).toNat
    0 ((history.length : Int) - 1) (-1) rfl (by omega) (by omega) (by omega)
    (by omega) (by omega)

theorem linearScanGo_sorted {v : Int} :
    ∀ {history : List HistoryEntry}, List.Pairwise entryLt history →
      ∀ (i idx : Int),
        linearScanGo history v i idx =
          if countLe history v = 0 then idx
          else i + (countLe history v : Int) - 1 := by
  intro history
  induction history with
  | nil =>
      intro _ i idx
      simp [linearScanGo, countLe]
  | cons e t ih =>
      intro hp i idx
      have hpt : List.Pairwise entryLt t := (List.pairwise_cons.mp hp).2
      by_cases hpe : e.snap_id ≤ v
      · have hc : countLe (e :: t) v = countLe t v + 1 := by
          simp [countLe, List.countP_cons, hpe]
        rw [hc]
        simp only [linearScanGo, if_pos hpe]
        rw [ih hpt (i + 1) i]
        by_cases h0 : countLe t v = 0
        · rw [if_pos h0, if_neg (by omega), h0]
          push_cast
          omega
        · rw [if_neg h0, if_neg (by omega)]
          push_cast
          omega
      · have hall := sorted_all_gt hp hpe
        have hct : countLe t v = 0 := by
          rw [countLe, List.countP_eq_zero]
          intro x hx
          simpa using hall x hx
        have hc : countLe (e :: t) v = 0 := by
          rw [countLe, List.countP_eq_zero]
          intro x hx
          rcases List.mem_cons.mp hx with hx | hx
          · subst hx
            simpa using hpe
          · simpa using hall x hx
        rw [hc]
        simp only [linearScanGo, if_neg hpe]
        rw [ih hpt (i + 1) idx, hct]
        simp

theorem linearScan_sorted {history : List HistoryEntry} {v : Int}
    (hs : timelineSorted history) :
    linearScan history v = (countLe history v : Int) - 1 := by
  have hp : List.Pairwise entryLt history := List.chain'_iff_pairwise.mp hs
  rw [linearScan, linearScanGo_sorted hp 0 (-1)]
  by_cases h0 : countLe history v = 0
  · simp [h0]
  · rw [if_neg h0]
    omega

/-! ### Resolution of `get_from_snapshot` against the filter specification -/

theorem sorted_filter_eq_take {v : Int} :
    ∀ {history : List HistoryEntry}, List.Pairwise entryLt history →
      history.filter (fun e => decide (e.snap_id ≤ v)) =
        history.take (countLe history v) := by
  intro history
  induction history with
  | nil =>
      intro _
      simp
  | cons e t ih =>
      intro hp
      have hpt : List.Pairwise entryLt t := (List.pairwise_cons.mp hp).2
      by_cases hpe : e.snap_id ≤ v
      · have hc : countLe (e :: t) v = countLe t v + 1 := by
          simp [countLe, List.countP_cons, hpe]
        rw [hc, List.filter_cons, if_pos (by simpa using hpe),
          List.take_succ_cons, ih hpt]
      · have hall := sorted_all_gt hp hpe
        have hc : countLe (e :: t) v = 0 := by
          rw [countLe, List.countP_eq_zero]
          intro x hx
          rcases List.mem_cons.mp hx with hx | hx
          · subst hx
            simpa using hpe
          · simpa using hall x hx
        rw [hc, List.take_zero, List.filter_cons, if_neg (by simpa using hpe),
          List.filter_eq_nil_iff.mpr]
        intro x hx
        simpa using hall x hx

theorem resolveAt_eq_none {history : List HistoryEntry} {v : Int}
    (hs : timelineSorted history) (hc : countLe history v = 0) :
    resolveAt history v = none := by
  rw [resolveAt, sorted_filter_eq_take (List.chain'_iff_pairwise.mp hs), hc]
  simp

theorem resolveAt_eq_some {history : List HistoryEntry} {v : Int}
    (hs : timelineSorted history) (hc : countLe history v ≠ 0) :
    resolveAt history v =
      some (history.getD (countLe history v - 1) default) := by
  have hcl : countLe history v ≤ history.length := List.countP_le_length _
  have hlt : countLe history v - 1 < history.length := by omega
  rw [resolveAt, sorted_filter_eq_take (List.chain'_iff_pairwise.mp hs)]
  rw [List.getLast?_eq_getElem?]
  have hlen : (history.take (countLe history v)).length = countLe history v := by
    simp
    omega
  rw [hlen, List.getElem?_take_of_lt (by omega), List.getElem?_eq_getElem hlt,
    List.getD_eq_getElem history default hlt]

/-- Characterization of `get_from_snapshot` on a sorted non-empty history
and a valid snap id: the outcome is decided by the last history entry whose
snap id is at most `v` (none: Python-`None` "absent"; tombstone: the
deleted-at-snapshot `KeyError`; value: that value). -/
theorem get_from_snapshot_resolve {s : SnapshottableMap} {k : String}
    {v : Int} (hs : timelineSorted (s.store k)) (hne : s.store k ≠ [])
    (h0 : 0 ≤ v) (hv : v < s.next_snap_id) :
    s.get_from_snapshot k v =
      match resolveAt (s.store k) v with
      | none => SnapResult.absent
      | some e =>
          match e.value with
          | none => SnapResult.keyErrorDeleted
          | some x => SnapResult.ok x := by
  unfold get_from_snapshot
  rw [if_neg (not_not_intro ⟨h0, hv⟩)]
  simp only [if_neg hne]
  rw [searchLoop_main _ _ hs]
  by_cases hc : countLe (s.store k) v = 0
  · rw [if_pos (by rw [hc]; norm_num), resolveAt_eq_none hs hc]
  · rw [if_neg (by omega), resolveAt_eq_some hs hc]
    have htn : ((countLe (s.store k) v : Int) - 1).toNat =
        countLe (s.store k) v - 1 := by omega
    rw [htn]

end SnapshottableMap

namespace SnapshottableMap

theorem Inv_step {s : SnapshottableMap} (hInv : Inv s) (op : Op) :
    Inv (step s op) := by
  cases op with
  | put k v => exact Inv_put hInv k v
  | delete k => exact Inv_delete hInv k
  | snapshot => exact Inv_take_snapshot hInv
  | get k => exact hInv
  | getFromSnapshot k v => exact hInv

theorem Inv_run {s : SnapshottableMap} (hInv : Inv s) (ops : List Op) :
    Inv (run s ops) := by
  induction ops generalizing s with
  | nil => exact hInv
  | cons op rest ih => exact ih (Inv_step hInv op)

theorem step_next (s : SnapshottableMap) (op : Op) (h : op ≠ Op.snapshot) :
    (step s op).next_snap_id = s.next_snap_id := by
  cases op with
  | put k v => rfl
  | delete k =>
      show (s.delete k).next_snap_id = _
      unfold delete
      by_cases hk : s.store k = [] <;> simp [hk, put]
  | snapshot => exact absurd rfl h
  | get k => rfl
  | getFromSnapshot k v => rfl

theorem run_next (s : SnapshottableMap) (ops : List Op) :
    (run s ops).next_snap_id = s.next_snap_id + (snapCount ops : Int) := by
  induction ops generalizing s with
  | nil => simp [run, snapCount]
  | cons op rest ih =>
      cases op with
      | snapshot =>
          show (run (s.take_snapshot).2 rest).next_snap_id = _
          rw [ih]
          show s.next_snap_id + 1 + _ = _
          have : snapCount (Op.snapshot :: rest) = snapCount rest + 1 := rfl
          rw [this]
          push_cast
          ring
      | put k v =>
          show (run (s.put k v) rest).next_snap_id = _
          rw [ih]
          rfl
      | delete k =>
          show (run (s.delete k) rest).next_snap_id = _
          have hd : (s.delete k).next_snap_id = s.next_snap_id :=
            step_next s (Op.delete k) (by simp)
          rw [ih, hd]
          rfl
      | get k =>
          show (run s rest).next_snap_id = _
          rw [ih]
          rfl
      | getFromSnapshot k v =>
          show (run s rest).next_snap_id = _
          rw [ih]
          rfl

end SnapshottableMap

/-! ### Specification-level current value of a key after a call sequence -/

namespace SnapshottableMap

theorem lastVal_eq_none_iff (s : SnapshottableMap) (k : String) :
    lastVal s k = none ↔ s.store k = [] := by
  rw [lastVal, Option.map_eq_none', List.getLast?_eq_none_iff]

theorem step_lastVal (s : SnapshottableMap) (op : Op) (k : String) :
    lastVal (step s op) k = stepVal op k (lastVal s k) := by
  cases op with
  | put k' v =>
      show lastVal (s.put k' v) k = if k' = k then some v else lastVal s k
      by_cases h : k' = k
      · subst h
        rw [if_pos rfl]
        unfold lastVal
        have hst : (s.put k' v).store k' = putHistory (s.store k') s.next_snap_id v := by
          show (if k' = k' then _ else _) = _
          rw [if_pos rfl]
        rw [hst, putHistory_getLast]
        rfl
      · rw [if_neg h]
        unfold lastVal
        have hst : (s.put k' v).store k = s.store k := by
          show (if k = k' then _ else _) = _
          rw [if_neg (fun hk => h hk.symm)]
        rw [hst]
  | delete k' =>
      show lastVal (s.delete k') k = _
      simp only [stepVal]
      by_cases h : k' = k
      · subst h
        rw [if_pos rfl]
        by_cases hemp : s.store k' = []
        · unfold delete
          rw [if_pos hemp]
          have : lastVal s k' = none := (lastVal_eq_none_iff s k').mpr hemp
          rw [this]
        · unfold delete
          rw [if_neg hemp]
          have h1 : lastVal (s.put k' none) k' = some none := by
            unfold lastVal
            have hst : (s.put k' none).store k' =
                putHistory (s.store k') s.next_snap_id none := by
              show (if k' = k' then _ else _) = _
              rw [if_pos rfl]
            rw [hst, putHistory_getLast]
            rfl
          rw [h1]
          have h2 : lastVal s k' ≠ none :=
            fun hc => hemp ((lastVal_eq_none_iff s k').mp hc)
          cases hval : lastVal s k' with
          | none => exact absurd hval h2
          | some w => rfl
      · rw [if_neg h]
        unfold delete
        by_cases hemp : s.store k' = []
        · rw [if_pos hemp]
        · rw [if_neg hemp]
          unfold lastVal
          have hst : (s.put k' none).store k = s.store k := by
            show (if k = k' then _ else _) = _
            rw [if_neg (fun hk => h hk.symm)]
          rw [hst]
  | snapshot => rfl
  | get k' => rfl
  | getFromSnapshot k' v => rfl

theorem run_lastVal (ops : List Op) (s : SnapshottableMap) (k : String) :
    lastVal (run s ops) k = applyVal ops k (lastVal s k) := by
  induction ops generalizing s with
  | nil => rfl
  | cons op rest ih =>
      show lastVal (run (step s op) rest) k = _
      rw [ih, step_lastVal]
      rfl

theorem get_eq_of_lastVal (s : SnapshottableMap) (k : String) :
    s.get k =
      match lastVal s k with
      | some (some v) => GetResult.ok v
      | _ => GetResult.keyError := by
  unfold get lastVal
  cases hl : (s.store k).getLast? with
  | none => rfl
  | some last =>
      cases hv : last.value with
      | none => simp [hv]
      | some v => simp [hv]

end SnapshottableMap

/-! ### Frame lemmas: old history entries are immutable -/

namespace SnapshottableMap

theorem put_store (s : SnapshottableMap) (k' : String) (v : Option Int)
    (k : String) :
    (s.put k' v).store k =
      if k = k' then putHistory (s.store k') s.next_snap_id v
      else s.store k := rfl

theorem putHistory_filter {w n : Int} (hw : w < n)
    (history : List HistoryEntry) (v : Option Int) :
    (putHistory history n v).filter (fun e => decide (e.snap_id ≤ w)) =
      history.filter (fun e => decide (e.snap_id ≤ w)) := by
  have hnw : ¬ (n ≤ w) := by omega
  unfold putHistory
  cases h : history.getLast? with
  | none =>
      have hnil : history = [] := List.getLast?_eq_none_iff.mp h
      subst hnil
      simp [hnw]
  | some last =>
      have hdrop : history.dropLast ++ [last] = history :=
        List.dropLast_append_getLast? last h
      by_cases heq : last.snap_id = n
      · simp only [heq, if_true]
        conv_rhs => rw [← hdrop]
        rw [List.filter_append, List.filter_append]
        congr 1
        simp [heq, hnw]
      · simp only [heq, if_false]
        rw [List.filter_append]
        simp [hnw]

theorem put_filter {s : SnapshottableMap} {w : Int}
    (hw : w < s.next_snap_id) (k' : String) (v : Option Int) (k : String) :
    ((s.put k' v).store k).filter (fun e => decide (e.snap_id ≤ w)) =
      (s.store k).filter (fun e => decide (e.snap_id ≤ w)) := by
  rw [put_store]
  by_cases h : k = k'
  · subst h
    rw [if_pos rfl, putHistory_filter hw]
  · rw [if_neg h]

theorem step_next_ge (s : SnapshottableMap) (op : Op) :
    s.next_snap_id ≤ (step s op).next_snap_id := by
  cases op with
  | snapshot =>
      show s.next_snap_id ≤ s.next_snap_id + 1
      omega
  | put k v => exact le_refl _
  | delete k =>
      have := step_next s (Op.delete k) (by simp)
      omega
  | get k => exact le_refl _
  | getFromSnapshot k v => exact le_refl _

theorem step_filter {s : SnapshottableMap} {w : Int}
    (hw : w < s.next_snap_id) (op : Op) (k : String) :
    ((step s op).store k).filter (fun e => decide (e.snap_id ≤ w)) =
      (s.store k).filter (fun e => decide (e.snap_id ≤ w)) := by
  cases op with
  | put k' v => exact put_filter hw k' v k
  | delete k' =>
      show ((s.delete k').store k).filter _ = _
      unfold delete
      by_cases hemp : s.store k' = []
      · rw [if_pos hemp]
      · rw [if_neg hemp]
        exact put_filter hw k' none k
  | snapshot => rfl
  | get k' => rfl
  | getFromSnapshot k' v => rfl

theorem run_filter {w : Int} (ops : List Op) :
    ∀ s : SnapshottableMap, w < s.next_snap_id → ∀ k : String,
      ((run s ops).store k).filter (fun e => decide (e.snap_id ≤ w)) =
        (s.store k).filter (fun e => decide (e.snap_id ≤ w)) := by
  induction ops with
  | nil =>
      intro s hw k
      rfl
  | cons op rest ih =>
      intro s hw k
      show ((run (step s op) rest).store k).filter _ = _
      rw [ih (step s op) (lt_of_lt_of_le hw (step_next_ge s op)) k,
        step_filter hw op k]

end SnapshottableMap

namespace SnapshottableMap

theorem step_store_frame {op : Op} {k : String} (h : writesKey op k = false)
    (s : SnapshottableMap) : (step s op).store k = s.store k := by
  cases op with
  | put k' v =>
      have hk : ¬ (k' = k) := by simpa [writesKey] using h
      show (s.put k' v).store k = s.store k
      rw [put_store, if_neg (fun hc => hk hc.symm)]
  | delete k' =>
      have hk : ¬ (k' = k) := by simpa [writesKey] using h
      show (s.delete k').store k = s.store k
      unfold delete
      by_cases hemp : s.store k' = []
      · rw [if_pos hemp]
      · rw [if_neg hemp, put_store, if_neg (fun hc => hk hc.symm)]
  | snapshot => rfl
  | get k' => rfl
  | getFromSnapshot k' v => rfl

theorem run_store_frame {k : String} (ops : List Op)
    (h : ∀ op ∈ ops, writesKey op k = false) :
    ∀ s : SnapshottableMap, (run s ops).store k = s.store k := by
  induction ops with
  | nil =>
      intro s
      rfl
  | cons op rest ih =>
      intro s
      show (run (step s op) rest).store k = _
      rw [ih (fun o ho => h o (List.mem_cons_of_mem _ ho)) (step s op),
        step_store_frame (h op (List.mem_cons_self _ _)) s]

end SnapshottableMap

/-! ### Trace of take_snapshot return values -/

theorem runTrace_eq (ops : List Op) :
    ∀ s : SnapshottableMap,
      runTrace s ops =
        (List.range (snapCount ops)).map
          (fun i : Nat => s.next_snap_id + (i : Int)) := by
  induction ops with
  | nil =>
      intro s
      rfl
  | cons op rest ih =>
      intro s
      cases op with
      | snapshot =>
          show (s.take_snapshot).1 :: runTrace (s.take_snapshot).2 rest = _
          rw [ih]
          have hsc : snapCount (Op.snapshot :: rest) = snapCount rest + 1 := rfl
          rw [hsc, List.range_succ_eq_map, List.map_cons, List.map_map]
          congr 1
          · show s.next_snap_id = s.next_snap_id + ((0 : Nat) : Int)
            push_cast
            ring
          · apply List.map_congr_left
            intro a ha
            show s.next_snap_id + 1 + (a : Int) =
              s.next_snap_id + ((a + 1 : Nat) : Int)
            push_cast
            ring
      | put k v =>
          show runTrace (s.put k v) rest = _
          rw [ih]
          rfl
      | delete k =>
          show runTrace (s.delete k) rest = _
          rw [ih]
          have hd : (s.delete k).next_snap_id = s.next_snap_id :=
            SnapshottableMap.step_next s (Op.delete k) (by simp)
          rw [hd]
          rfl
      | get k =>
          show runTrace s rest = _
          rw [ih]
          rfl
      | getFromSnapshot k v =>
          show runTrace s rest = _
          rw [ih]
          rfl

/-! ### Composition of puts -/

namespace SnapshottableMap

theorem put_next (s : SnapshottableMap) (k : String) (v : Option Int) :
    (s.put k v).next_snap_id = s.next_snap_id := rfl

theorem eq_of_fields {s t : SnapshottableMap} (hst : s.store = t.store)
    (hn : s.next_snap_id = t.next_snap_id) : s = t := by
  cases s
  cases t
  cases hst
  cases hn
  rfl

theorem put_put (s : SnapshottableMap) (k : String) (v1 v2 : Option Int) :
    (s.put k v1).put k v2 = s.put k v2 := by
  apply eq_of_fields
  · funext k'
    rw [put_store (s.put k v1) k v2 k', put_store s k v2 k',
      put_store s k v1 k, if_pos rfl, put_next]
    by_cases h : k' = k
    · rw [if_pos h, if_pos h, putHistory_putHistory]
    · rw [if_neg h, if_neg h, put_store, if_neg h]
  · rfl

end SnapshottableMap

namespace SnapshottableMap

/-- Shape of `get_from_snapshot` on a valid snap id: the not-found
`KeyError` exactly for an empty history, otherwise one of the three
resolution outcomes. -/
theorem gfs_valid_shape {s : SnapshottableMap} {k : String} {v : Int}
    (hval : 0 ≤ v ∧ v < s.next_snap_id) :
    (s.store k = [] ∧
      s.get_from_snapshot k v = SnapResult.keyErrorNever) ∨
    (s.store k ≠ [] ∧
      (s.get_from_snapshot k v = SnapResult.absent ∨
       s.get_from_snapshot k v = SnapResult.keyErrorDeleted ∨
       ∃ x, s.get_from_snapshot k v = SnapResult.ok x)) := by
  unfold get_from_snapshot
  rw [if_neg (not_not_intro hval)]
  by_cases hne : s.store k = []
  · left
    refine ⟨hne, ?_⟩
    simp [hne]
  · right
    refine ⟨hne, ?_⟩
    simp only [if_neg hne]
    by_cases hidx :
        searchLoop (s.store k) v 0 (((s.store k).length : Int) - 1) (-1) = -1
    · left
      rw [if_pos hidx]
    · right
      rw [if_neg hidx]
      cases hval2 : ((s.store k).getD
          (searchLoop (s.store k) v 0 (((s.store k).length : Int) - 1)
            (-1)).toNat default).value with
      | none =>
          left
          rfl
      | some x =>
          right
          exact ⟨x, rfl⟩

end SnapshottableMap

open SnapshottableMap

/-- C2: on a non-empty (sorted, per the C6 invariant) history and a valid
snapshot id, `get_from_snapshot` resolves to the last history entry whose
version is at most `v`: no such entry gives the absent result (Python
`None`), a tombstone gives the deleted-at-snapshot error, and otherwise the
entry's value is returned. -/
theorem c2_resolution_semantics (s : SnapshottableMap) (k : String) (v : Int)
    (hs : timelineSorted (s.store k)) (hne : s.store k ≠ [])
    (h0 : 0 ≤ v) (hv : v < s.next_snap_id) :
    s.get_from_snapshot k v =
      match resolveAt (s.store k) v with
      | none => SnapResult.absent
      | some e =>
          match e.value with
          | none => SnapResult.keyErrorDeleted
          | some x => SnapResult.ok x :=
  get_from_snapshot_resolve hs hne h0 hv

/-- Witness for C2 at a concrete state. -/
theorem c2_resolution_semantics_witness :
    sampleMap.get_from_snapshot "a" 0 = SnapResult.ok 5 := by
  have h := c2_resolution_semantics sampleMap "a" 0
    (by simp [sampleMap, timelineSorted]) (by simp [sampleMap])
    (by norm_num) (by decide)
  rw [h]
  rfl

/-- C3: `get_from_snapshot` fails with the range error exactly when the
snap id is outside `[0, N)` — in particular always when `N = 0` — and this
check precedes any key lookup; on a valid snap id it fails with the
not-found error exactly when the key has no history. -/
theorem c3_error_preconditions (s : SnapshottableMap) (k : String) (v : Int) :
    (s.get_from_snapshot k v = SnapResult.indexError ↔
      ¬ (0 ≤ v ∧ v < s.next_snap_id)) ∧
    (s.next_snap_id = 0 →
      s.get_from_snapshot k v = SnapResult.indexError) ∧
    ((0 ≤ v ∧ v < s.next_snap_id) →
      (s.get_from_snapshot k v = SnapResult.keyErrorNever ↔
        s.store k = [])) := by
  refine ⟨⟨?_, ?_⟩, ?_, ?_⟩
  · intro hgfs
    by_contra hnn
    have hval : 0 ≤ v ∧ v < s.next_snap_id := hnn
    rcases gfs_valid_shape hval with ⟨_, hg⟩ | ⟨_, hg | hg | ⟨x, hg⟩⟩ <;>
      rw [hgfs] at hg <;> exact absurd hg (by simp)
  · intro hval
    unfold SnapshottableMap.get_from_snapshot
    rw [if_pos hval]
  · intro h0
    unfold SnapshottableMap.get_from_snapshot
    rw [if_pos (by omega)]
  · intro hval
    rcases gfs_valid_shape hval with ⟨hemp, hg⟩ | ⟨hne, hg⟩
    · rw [hg]
      simp [hemp]
    · constructor
      · intro hgfs
        rcases hg with hg | hg | ⟨x, hg⟩ <;> rw [hgfs] at hg <;>
          exact absurd hg (by simp)
      · intro hemp
        exact absurd hemp hne

/-- Witness for C3: a state with no snapshots rejects every query, and a
valid query on an unknown key reports not-found. -/
theorem c3_error_preconditions_witness :
    SnapshottableMap.empty.get_from_snapshot "a" 0 = SnapResult.indexError ∧
    sampleMap.get_from_snapshot "b" 0 = SnapResult.keyErrorNever := by
  refine ⟨(c3_error_preconditions SnapshottableMap.empty "a" 0).2.1 rfl, ?_⟩
  exact ((c3_error_preconditions sampleMap "b" 0).2.2
    ⟨by norm_num, by decide⟩).mpr (by decide)

/-- C4: after any call sequence on a fresh map, `get` returns the value of
the most recent non-superseded effective write to the key — the `KeyError`
cases being exactly "never written" and "last effective write was a
delete". -/
theorem c4_current_value (ops : List Op) (k : String) :
    (run SnapshottableMap.empty ops).get k =
      match currentVal ops k with
      | some (some v) => GetResult.ok v
      | _ => GetResult.keyError := by
  rw [SnapshottableMap.get_eq_of_lastVal, SnapshottableMap.run_lastVal]
  rfl

/-- C5: across any call sequence on a fresh map the `take_snapshot` calls
return `0, 1, 2, …` in order with no repeats or gaps; each call returns the
previous counter value and bumps the counter by one, and no other operation
changes the counter. -/
theorem c5_monotonic_versions :
    (∀ ops : List Op,
      runTrace SnapshottableMap.empty ops =
        (List.range (snapCount ops)).map (fun i : Nat => (i : Int))) ∧
    (∀ (s : SnapshottableMap) (op : Op), op ≠ Op.snapshot →
      (step s op).next_snap_id = s.next_snap_id) ∧
    (∀ s : SnapshottableMap,
      (s.take_snapshot).1 = s.next_snap_id ∧
      (s.take_snapshot).2.next_snap_id = s.next_snap_id + 1) := by
  refine ⟨?_, step_next, fun s => ⟨rfl, rfl⟩⟩
  intro ops
  rw [runTrace_eq]
  apply List.map_congr_left
  intro a ha
  show SnapshottableMap.empty.next_snap_id + (a : Int) = (a : Int)
  show (0 : Int) + (a : Int) = (a : Int)
  omega

/-- Witness for C5 on a concrete call sequence. -/
theorem c5_monotonic_versions_witness :
    runTrace SnapshottableMap.empty
      [Op.put "a" (some 1), Op.snapshot, Op.snapshot] = [0, 1] ∧
    (step SnapshottableMap.empty (Op.put "a" (some 1))).next_snap_id = 0 := by
  constructor
  · rw [c5_monotonic_versions.1 [Op.put "a" (some 1), Op.snapshot,
      Op.snapshot]]
    rfl
  · exact c5_monotonic_versions.2.1 SnapshottableMap.empty
      (Op.put "a" (some 1)) (by decide)

/-- C6: in every state reachable from the fresh map, each key's history has
strictly increasing entry versions, so no two entries share a version. -/
theorem c6_coalescing_invariant (ops : List Op) (k : String) :
    List.Pairwise entryLt ((run SnapshottableMap.empty ops).store k) ∧
    List.Pairwise (fun a b : HistoryEntry => a.snap_id ≠ b.snap_id)
      ((run SnapshottableMap.empty ops).store k) := by
  have hInv := Inv_run Inv_empty ops
  have hp : List.Pairwise entryLt ((run SnapshottableMap.empty ops).store k) :=
    List.chain'_iff_pairwise.mp (hInv.2 k).1
  refine ⟨hp, hp.imp ?_⟩
  intro a b hab
  exact Int.ne_of_lt hab

/-- C7: consecutive `put` calls on the same key with no intervening
`take_snapshot` leave the map in exactly the state of a single `put` of the
last value, so no later call of any kind can distinguish them. -/
theorem c7_coalescing_observational (s : SnapshottableMap) (k : String)
    (vs : List (Option Int)) (v : Option Int) :
    applyPuts s k (vs ++ [v]) = s.put k v := by
  induction vs generalizing s with
  | nil => rfl
  | cons w rest ih =>
      show applyPuts (s.put k w) k (rest ++ [v]) = _
      rw [ih (s.put k w), put_put]

/-- C8: on a sorted history the two-pointer binary search of
`get_from_snapshot` returns the same index as a linear scan for the
rightmost entry with version at most `v`, and returns -1 exactly when no
entry's version is at most `v`. -/
theorem c8_binary_search_equiv (history : List HistoryEntry) (v : Int)
    (hs : timelineSorted history) :
    searchLoop history v 0 ((history.length : Int) - 1) (-1) =
      linearScan history v ∧
    (searchLoop history v 0 ((history.length : Int) - 1) (-1) = -1 ↔
      ∀ e ∈ history, ¬ e.snap_id ≤ v) := by
  rw [searchLoop_main history v hs, linearScan_sorted hs]
  refine ⟨rfl, ?_⟩
  constructor
  · intro h
    have hc : countLe history v = 0 := by omega
    rw [countLe, List.countP_eq_zero] at hc
    intro e he
    simpa using hc e he
  · intro h
    have hc : countLe history v = 0 := by
      rw [countLe, List.countP_eq_zero]
      intro e he
      simpa using h e he
    omega

/-- Witness for C8 on a concrete one-entry history. -/
theorem c8_binary_search_equiv_witness :
    searchLoop [(⟨0, some 1⟩ : HistoryEntry)] 0 0
        (([(⟨0, some 1⟩ : HistoryEntry)].length : Int) - 1) (-1) =
      linearScan [⟨0, some 1⟩] 0 ∧
    (searchLoop [(⟨0, some 1⟩ : HistoryEntry)] 0 0
        (([(⟨0, some 1⟩ : HistoryEntry)].length : Int) - 1) (-1) = -1 ↔
      ∀ e ∈ [(⟨0, some 1⟩ : HistoryEntry)], ¬ e.snap_id ≤ 0) :=
  c8_binary_search_equiv [⟨0, some 1⟩] 0 (by simp [timelineSorted])

/-- C9: `delete` on a key with no history leaves the state unchanged (and
never fails); on a key with a history it is exactly `put` of the
tombstone. -/
theorem c9_delete_noop (s : SnapshottableMap) (k : String) :
    (s.store k = [] → s.delete k = s) ∧
    (s.store k ≠ [] → s.delete k = s.put k none) := by
  constructor
  · intro h
    unfold SnapshottableMap.delete
    rw [if_pos h]
  · intro h
    unfold SnapshottableMap.delete
    rw [if_neg h]

/-- Witness for C9 at concrete states. -/
theorem c9_delete_noop_witness :
    SnapshottableMap.empty.delete "a" = SnapshottableMap.empty ∧
    sampleMap.delete "a" = sampleMap.put "a" none :=
  ⟨(c9_delete_noop SnapshottableMap.empty "a").1 rfl,
    (c9_delete_noop sampleMap "a").2 (by decide)⟩

/-- C10: `put k none` on a key with no history creates a one-entry
tombstone history (unlike `delete`, which would be a no-op); afterwards
`get` fails with the not-found error, a subsequent `delete` takes the
`put`-tombstone path, and as long as the key is not written again,
`get_from_snapshot` at any valid version at or after that entry's version
fails with the deleted-at-snapshot error rather than the never-existed
one. -/
theorem c10_put_none_tombstone (s : SnapshottableMap) (k : String)
    (hk : s.store k = []) (hN : 0 ≤ s.next_snap_id) :
    (s.put k none).store k = [⟨s.next_snap_id, none⟩] ∧
    (s.put k none).get k = GetResult.keyError ∧
    (s.put k none).delete k = (s.put k none).put k none ∧
    (∀ suf : List Op, (∀ op ∈ suf, writesKey op k = false) →
      ∀ v : Int, s.next_snap_id ≤ v →
        v < (run (s.put k none) suf).next_snap_id →
        (run (s.put k none) suf).get_from_snapshot k v =
          SnapResult.keyErrorDeleted) := by
  have h1 : (s.put k none).store k = [⟨s.next_snap_id, none⟩] := by
    rw [put_store, if_pos rfl, hk]
    rfl
  refine ⟨h1, ?_, ?_, ?_⟩
  · unfold SnapshottableMap.get
    rw [h1]
    rfl
  · unfold SnapshottableMap.delete
    rw [if_neg (by rw [h1]; simp)]
  · intro suf hsuf v hv1 hv2
    have hstore : (run (s.put k none) suf).store k =
        [⟨s.next_snap_id, none⟩] := by
      rw [run_store_frame suf hsuf (s.put k none), h1]
    unfold SnapshottableMap.get_from_snapshot
    rw [if_neg (not_not_intro ⟨by omega, hv2⟩)]
    simp only [hstore]
    rw [if_neg (by simp)]
    rw [searchLoop_main _ _ (by simp [timelineSorted])]
    have hc : countLe [(⟨s.next_snap_id, none⟩ : HistoryEntry)] v = 1 := by
      simp [countLe, hv1]
    rw [hc]
    rfl

/-- Witness for C10 starting from the fresh map. -/
theorem c10_put_none_tombstone_witness :
    (SnapshottableMap.empty.put "a" none).store "a" = [⟨0, none⟩] ∧
    (SnapshottableMap.empty.put "a" none).get "a" = GetResult.keyError ∧
    (SnapshottableMap.empty.put "a" none).delete "a" =
      (SnapshottableMap.empty.put "a" none).put "a" none ∧
    (run (SnapshottableMap.empty.put "a" none)
        [Op.snapshot]).get_from_snapshot "a" 0 =
      SnapResult.keyErrorDeleted := by
  have h := c10_put_none_tombstone SnapshottableMap.empty "a" rfl (le_refl 0)
  exact ⟨h.1, h.2.1, h.2.2.1,
    h.2.2.2 [Op.snapshot] (by decide) 0 (by decide) (by decide)⟩

/-- C1: for any decomposition of a call history into `pre`, the
`take_snapshot` call that produced version `v = snapVersion pre`, and any
later calls `suf`, `get_from_snapshot k v` in the final state agrees with
what `get k` returned immediately after that `take_snapshot`: success
values coincide, and `get`'s failure corresponds exactly to the absent /
never-existed / deleted-at-snapshot outcomes of `get_from_snapshot`. -/
theorem c1_historical_round_trip (pre suf : List Op) (k : String) :
    (∀ x : Int,
      (finalState pre suf).get_from_snapshot k (snapVersion pre) =
          SnapResult.ok x ↔
        (afterSnap pre).get k = GetResult.ok x) ∧
    ((afterSnap pre).get k = GetResult.keyError ↔
      ((finalState pre suf).get_from_snapshot k (snapVersion pre) =
          SnapResult.absent ∨
       (finalState pre suf).get_from_snapshot k (snapVersion pre) =
          SnapResult.keyErrorNever ∨
       (finalState pre suf).get_from_snapshot k (snapVersion pre) =
          SnapResult.keyErrorDeleted)) := by
  have hInvP : Inv (run SnapshottableMap.empty pre) := Inv_run Inv_empty pre
  have hInvM : Inv (afterSnap pre) := Inv_take_snapshot hInvP
  have hInvS : Inv (finalState pre suf) := Inv_run hInvM suf
  have hv : snapVersion pre = (run SnapshottableMap.empty pre).next_snap_id :=
    rfl
  have hMnext : (afterSnap pre).next_snap_id = snapVersion pre + 1 := rfl
  have hMstore : (afterSnap pre).store =
      (run SnapshottableMap.empty pre).store := rfl
  have hv0 : 0 ≤ snapVersion pre := hInvP.1
  have hrn := run_next (afterSnap pre) suf
  have hcount : (0 : Int) ≤ (snapCount suf : Int) := Int.ofNat_nonneg _
  have hSnext : snapVersion pre < (finalState pre suf).next_snap_id := by
    show snapVersion pre < (run (afterSnap pre) suf).next_snap_id
    omega
  have hfilter : ((finalState pre suf).store k).filter
      (fun e => decide (e.snap_id ≤ snapVersion pre)) =
      (run SnapshottableMap.empty pre).store k := by
    have h1 := run_filter suf (afterSnap pre)
      (show snapVersion pre < (afterSnap pre).next_snap_id by omega) k
    show ((run (afterSnap pre) suf).store k).filter
        (fun e => decide (e.snap_id ≤ snapVersion pre)) =
      (run SnapshottableMap.empty pre).store k
    rw [h1, hMstore]
    apply List.filter_eq_self.mpr
    intro e he
    have hb := (hInvP.2 k).2 e he
    exact decide_eq_true (by omega)
  by_cases hSk : (finalState pre suf).store k = []
  · have hPk : (run SnapshottableMap.empty pre).store k = [] := by
      rw [← hfilter, hSk]
      rfl
    have hgfs : (finalState pre suf).get_from_snapshot k (snapVersion pre) =
        SnapResult.keyErrorNever := by
      unfold SnapshottableMap.get_from_snapshot
      rw [if_neg (not_not_intro ⟨hv0, hSnext⟩)]
      simp [hSk]
    have hget : (afterSnap pre).get k = GetResult.keyError := by
      unfold SnapshottableMap.get
      have h2 : (afterSnap pre).store k =
          (run SnapshottableMap.empty pre).store k := rfl
      rw [h2, hPk]
      rfl
    rw [hgfs, hget]
    exact ⟨fun x => by simp, by simp⟩
  · have hsorted : timelineSorted ((finalState pre suf).store k) :=
      (hInvS.2 k).1
    have hres := get_from_snapshot_resolve hsorted hSk hv0 hSnext
    have hresolve : resolveAt ((finalState pre suf).store k)
        (snapVersion pre) =
        ((run SnapshottableMap.empty pre).store k).getLast? := by
      rw [resolveAt, hfilter]
    rw [hresolve] at hres
    have h2 : (afterSnap pre).store k =
        (run SnapshottableMap.empty pre).store k := rfl
    cases hl : ((run SnapshottableMap.empty pre).store k).getLast? with
    | none =>
        simp only [hl] at hres
        have hget : (afterSnap pre).get k = GetResult.keyError := by
          unfold SnapshottableMap.get
          rw [h2, hl]
        rw [hres, hget]
        exact ⟨fun x => by simp, by simp⟩
    | some last =>
        cases hval : last.value with
        | none =>
            simp only [hl, hval] at hres
            have hget : (afterSnap pre).get k = GetResult.keyError := by
              unfold SnapshottableMap.get
              rw [h2, hl]
              simp only [hval]
            rw [hres, hget]
            exact ⟨fun x => by simp, by simp⟩
        | some x0 =>
            simp only [hl, hval] at hres
            have hget : (afterSnap pre).get k = GetResult.ok x0 := by
              unfold SnapshottableMap.get
              rw [h2, hl]
              simp only [hval]
            rw [hres, hget]
            exact ⟨fun x => by simp, by simp⟩
